import Mathlib

/-!
Verification of the maidsafe `sentinel` library (claim accumulation and
quorum resolution).

The Rust sources are embedded shallowly:

* `std::collections::BTreeMap` / `BTreeSet` are modelled as association
  lists kept in ascending key order (`mapLookup`, `mapUpdate`, `mapDelete`,
  `setInsert`); the predicate `mapSorted` is the representation invariant
  that every value of the Rust map type satisfies.
* `lru_time_cache::LruCache` is an external crate: its recency tracking and
  capacity-based eviction are abstracted away and only its key-value
  content is modelled, following the design note that reads may update
  recency but never content.
* `sodiumoxide` signatures and keys are external: signature verification is
  a parameter `vrfy`, and key bytes / names / claims are parameters with
  the orders the code requires (`PublicKey` bytes are compared bytewise in
  the source, a linear order).
* `statistics.rs` (`Frequency`), `key_store.rs` (`KeyStore`),
  `pure_sentinel.rs` (`PureSentinel`), `refresh_sentinel.rs`
  (`RefreshSentinel`) and `account_sentinel.rs` (`resolve_mergeable`) are
  translated function by function.
* Rust's stable `sort_by` is modelled by `List.mergeSort`, which is also a
  stable sort.
-/

namespace Sentinel

/-- Lookup of the first binding of `k`: models `BTreeMap::get` (on the sorted
representation the key is bound at most once). -/
def mapLookup {α β : Type} [DecidableEq α] (k : α) : List (α × β) → Option β
  | [] => none
  | p :: t => if k = p.1 then some p.2 else mapLookup k t

/-- Models `BTreeMap::entry(k).or_insert_with(|| d)` followed by an in-place
mutation `f` of the value: the binding of `k` is updated with `f`, and if `k`
is absent, `(k, f d)` is inserted at its ascending-order position. -/
def mapUpdate {α β : Type} [LinearOrder α] (k : α) (f : β → β) (d : β) :
    List (α × β) → List (α × β)
  | [] => [(k, f d)]
  | p :: t =>
    if k = p.1 then (p.1, f p.2) :: t
    else if k < p.1 then (k, f d) :: p :: t
    else p :: mapUpdate k f d t

/-- Models `BTreeMap::remove(k)` (dropping the binding of `k`). -/
def mapDelete {α β : Type} [DecidableEq α] (k : α) (l : List (α × β)) :
    List (α × β) :=
  l.filter (fun p => decide (¬ p.1 = k))

/-- Representation invariant of the `BTreeMap` model: keys strictly ascending
(hence also unique). -/
def mapSorted {α β : Type} [LT α] (l : List (α × β)) : Prop :=
  l.Pairwise (fun p q => p.1 < q.1)

/-- Models `BTreeSet::insert`: the element is inserted at its ascending-order
position, and the set is unchanged when the element is already present. -/
def setInsert {α : Type} [LinearOrder α] (a : α) : List α → List α
  | [] => [a]
  | b :: t => if a = b then b :: t else if a < b then a :: b :: t else b :: setInsert a t

/-! ### `statistics.rs`: the `Frequency` counter -/

/-- `Frequency` from `statistics.rs`: a vector of `(key, count)` pairs in
first-insertion order. -/
structure Frequency (α : Type) where
  map : List (α × ℕ)

/-- `Frequency::new`. -/
def Frequency.new {α : Type} : Frequency α := ⟨[]⟩

/-- The loop body of `Frequency::update`: linear scan for `key`, incrementing
the count of the first (and only) entry holding it, else pushing `(key, 1)`
at the end of the vector. -/
def Frequency.updateMap {α : Type} [DecidableEq α] (key : α) :
    List (α × ℕ) → List (α × ℕ)
  | [] => [(key, 1)]
  | p :: t => if p.1 = key then (p.1, p.2 + 1) :: t else p :: Frequency.updateMap key t

/-- `Frequency::update`. -/
def Frequency.update {α : Type} [DecidableEq α] (f : Frequency α) (key : α) :
    Frequency α :=
  ⟨Frequency.updateMap key f.map⟩

/-- `Frequency::sort_by_highest`: `self.map.sort_by(|a,b| b.1.cmp(&a.1))`, a
stable sort by descending count, modelled by the stable `List.mergeSort`. -/
def Frequency.sort_by_highest {α : Type} [DecidableEq α] (f : Frequency α) :
    List (α × ℕ) :=
  f.map.mergeSort (fun a b => decide (b.2 ≤ a.2))

/-! ### `key_store.rs`: the `KeyStore` -/

/-- `KeyStore` from `key_store.rs`.  `cache` maps a target name to a
`BTreeMap` from key data to the `BTreeSet` of senders that vouched for it.
The outer `LruCache` container is external; its content is modelled, its
capacity (1000 targets) and recency order are abstracted. -/
structure KeyStore (Name Key : Type) where
  quorum_size : ℕ
  cache : List (Name × List (Key × List Name))

/-- `KeyStore::new`. -/
def KeyStore.new {Name Key : Type} (quorum_size : ℕ) : KeyStore Name Key :=
  ⟨quorum_size, []⟩

/-- `KeyStore::add_key`: no self signing, then
`cache.entry(target).or_insert_with(new_map).entry(key).or_insert_with(new_set).insert(sender)`. -/
def KeyStore.add_key {Name Key : Type} [LinearOrder Name] [LinearOrder Key]
    (st : KeyStore Name Key) (target sender : Name) (key : Key) :
    KeyStore Name Key :=
  if target = sender then st
  else
    { st with
      cache := mapUpdate target
        (fun m => mapUpdate key (fun s => setInsert sender s) [] m) [] st.cache }

/-- `KeyStore::pick_where_quorum_reached`: keys whose sender set has size at
least `quorum`, in the (ascending) iteration order of the `BTreeMap`. -/
def pick_where_quorum_reached {Name Key : Type} (keys : List (Key × List Name))
    (quorum : ℕ) : List Key :=
  keys.filterMap (fun p => if quorum ≤ p.2.length then some p.1 else none)

/-- `KeyStore::get_accumulated_keys`: `quorum_size.unwrap_or(self.quorum_size)`,
then the quorate keys of `target` (empty when `target` is not cached). -/
def KeyStore.get_accumulated_keys {Name Key : Type} [DecidableEq Name]
    (st : KeyStore Name Key) (target : Name) (quorum_size : Option ℕ) :
    List Key :=
  match mapLookup target st.cache with
  | none => []
  | some keys => pick_where_quorum_reached keys (quorum_size.getD st.quorum_size)

/-- Well-formedness of a `KeyStore` model state: the association lists that
stand for the Rust `BTreeMap`s have strictly ascending keys.  Every value of
the Rust type satisfies this; it is a representation invariant of the
embedding, preserved by `add_key` (`KeyStore.WF_add_key`). -/
def KeyStore.WF {Name Key : Type} [LT Name] [LT Key] (st : KeyStore Name Key) :
    Prop :=
  mapSorted st.cache ∧ ∀ p ∈ st.cache, mapSorted p.2

/-! ### The claim accumulator used by `PureSentinel` -/

/-- Modelled from the spec: `PureSentinel` stores claims in the external
`accumulator::Accumulator` crate, whose code is not part of this repository.
Spec 4.2: a bounded map from `Request` to an append-only sequence of
submissions with a mutable `quorum_size`; the LRU bound (default 1000) and
recency order of the container are abstracted, only the content is kept. -/
structure Accumulator (Req α : Type) where
  quorum_size : ℕ
  storage : List (Req × List α)

/-- Modelled from the spec: `Accumulator::new(quorum_size)` starts empty. -/
def Accumulator.new {Req α : Type} (quorum_size : ℕ) : Accumulator Req α :=
  ⟨quorum_size, []⟩

/-- Modelled from the spec: `contains_key` is a non-mutating existence
query. -/
def Accumulator.contains_key {Req α : Type} [DecidableEq Req]
    (acc : Accumulator Req α) (request : Req) : Bool :=
  (mapLookup request acc.storage).isSome

/-- Modelled from the spec: `set_quorum_size` mutates the emission threshold
used by subsequent `add` calls. -/
def Accumulator.set_quorum_size {Req α : Type} (acc : Accumulator Req α)
    (n : ℕ) : Accumulator Req α :=
  { acc with quorum_size := n }

/-- Modelled from the spec: `add(request, submission)` appends to the sequence
at `request` (creating the entry if absent) and returns
`(request, sequence-snapshot)` iff the sequence after insertion has at least
`quorum_size` elements. -/
def Accumulator.add {Req α : Type} [LinearOrder Req] (acc : Accumulator Req α)
    (request : Req) (submission : α) :
    Option (Req × List α) × Accumulator Req α :=
  let seq := ((mapLookup request acc.storage).getD []) ++ [submission]
  ( if acc.quorum_size ≤ seq.length then some (request, seq) else none
  , { acc with
      storage := mapUpdate request (fun s => s ++ [submission]) [] acc.storage } )

/-- Modelled from the spec: `get` returns a snapshot of the stored sequence if
present (the LRU touch is abstracted). -/
def Accumulator.get {Req α : Type} [DecidableEq Req] (acc : Accumulator Req α)
    (request : Req) : Option (Req × List α) :=
  (mapLookup request acc.storage).map (fun s => (request, s))

/-- Modelled from the spec: `delete` removes the entry. -/
def Accumulator.delete {Req α : Type} [DecidableEq Req]
    (acc : Accumulator Req α) (request : Req) : Accumulator Req α :=
  { acc with storage := mapDelete request acc.storage }

/-! ### `pure_sentinel.rs`: `PureSentinel` -/

/-- `AddResult` from `pure_sentinel.rs`. -/
inductive AddResult (Req Name Claim : Type) where
  | RequestKeys : Name → AddResult Req Name Claim
  | Resolved : Req → Claim → AddResult Req Name Claim
deriving DecidableEq

/-- `PureSentinel`: one claim accumulator and one key store.  `Req`, `Name`,
`Key` (public key bytes), `Sig` (signature) and `Claim` (serialised claim)
are the opaque parameter types of the Rust generics and of the external
signing scheme. -/
structure PureSentinel (Req Name Key Sig Claim : Type) where
  claim_accumulator : Accumulator Req (Name × Sig × Claim)
  key_store : KeyStore Name Key

/-- `PureSentinel::new`: `Accumulator::new(0)` and an empty key store. -/
def PureSentinel.new {Req Name Key Sig Claim : Type} :
    PureSentinel Req Name Key Sig Claim :=
  ⟨Accumulator.new 0, KeyStore.new 0⟩

/-- The `for` loop of `verify_single_claim`: try each accumulated key in
order; `verify_signature` returns the claim body on the first success.
`vrfy` is the external deterministic signing-scheme check. -/
def find_verify {Key Sig Claim : Type} (vrfy : Sig → Key → Claim → Bool)
    (signature : Sig) (body : Claim) : List Key → Option Claim
  | [] => none
  | k :: t =>
    if vrfy signature k body then some body else find_verify vrfy signature body t

/-- `PureSentinel::verify_single_claim`: the accumulated keys of `name` at
quorum `quorum_size` are tried in order. -/
def PureSentinel.verify_single_claim {Req Name Key Sig Claim : Type}
    [DecidableEq Name] (vrfy : Sig → Key → Claim → Bool)
    (st : PureSentinel Req Name Key Sig Claim) (name : Name) (signature : Sig)
    (body : Claim) (quorum_size : ℕ) : Option Claim :=
  find_verify vrfy signature body
    (st.key_store.get_accumulated_keys name (some quorum_size))

/-- `PureSentinel::verify`: filter the claims through
`verify_single_claim`. -/
def PureSentinel.verify {Req Name Key Sig Claim : Type} [DecidableEq Name]
    (vrfy : Sig → Key → Claim → Bool)
    (st : PureSentinel Req Name Key Sig Claim)
    (claims : List (Name × Sig × Claim)) (quorum_size : ℕ) : List Claim :=
  claims.filterMap
    (fun c => st.verify_single_claim vrfy c.1 c.2.1 c.2.2 quorum_size)

/-- `PureSentinel::squash`: nothing below `quorum_size` verified claims, else
the first entry of the descending-frequency list with count at least
`quorum_size` (the debug assertions are debug-only and elided). -/
def squash {Claim : Type} [DecidableEq Claim] (verified_claims : List Claim)
    (quorum_size : ℕ) : Option Claim :=
  if verified_claims.length < quorum_size then none
  else
    let frequency := verified_claims.foldl Frequency.update Frequency.new
    (((frequency.sort_by_highest).filter
        (fun p => decide (quorum_size ≤ p.2))).map Prod.fst).head?

/-- `PureSentinel::resolve`: verify, squash, and on success delete the
accumulator entry and return `(request, body)`. -/
def PureSentinel.resolve {Req Name Key Sig Claim : Type} [LinearOrder Req]
    [DecidableEq Name] [DecidableEq Claim] (vrfy : Sig → Key → Claim → Bool)
    (st : PureSentinel Req Name Key Sig Claim) (request : Req)
    (claims : List (Name × Sig × Claim)) (quorum_size : ℕ) :
    Option (Req × Claim) × PureSentinel Req Name Key Sig Claim :=
  match squash (st.verify vrfy claims quorum_size) quorum_size with
  | some c =>
    ( some (request, c)
    , { st with claim_accumulator := st.claim_accumulator.delete request } )
  | none => (none, st)

/-- `PureSentinel::add_claim`: record first sighting, set the quorum, insert,
and chain `add → resolve → Resolved` with the `RequestKeys` fallback on a
first sighting.  `get_source` is the `Source` trait method of `Req`. -/
def PureSentinel.add_claim {Req Name Key Sig Claim : Type} [LinearOrder Req]
    [DecidableEq Name] [DecidableEq Claim] (vrfy : Sig → Key → Claim → Bool)
    (get_source : Req → Name) (st : PureSentinel Req Name Key Sig Claim)
    (request : Req) (claimant : Name) (signature : Sig) (claim : Claim)
    (quorum_size : ℕ) :
    Option (AddResult Req Name Claim) × PureSentinel Req Name Key Sig Claim :=
  let saw_first_time := ! st.claim_accumulator.contains_key request
  let res := (st.claim_accumulator.set_quorum_size quorum_size).add request
    (claimant, signature, claim)
  let st1 := { st with claim_accumulator := res.2 }
  let r2 := match res.1 with
    | some (request', claims) => st1.resolve vrfy request' claims quorum_size
    | none => (none, st1)
  match r2.1 with
  | some (req, c) => (some (.Resolved req c), r2.2)
  | none =>
    ( if saw_first_time then some (.RequestKeys (get_source request)) else none
    , r2.2 )

/-- `PureSentinel::add_keys`: keys for a request that is not accumulating
claims are dropped; otherwise every `(target, key)` pair is attested by
`sender` in the key store, and the stored claims are re-resolved. -/
def PureSentinel.add_keys {Req Name Key Sig Claim : Type} [LinearOrder Req]
    [LinearOrder Name] [LinearOrder Key] [DecidableEq Claim]
    (vrfy : Sig → Key → Claim → Bool)
    (st : PureSentinel Req Name Key Sig Claim) (request : Req) (sender : Name)
    (keys : List (Name × Key)) (quorum_size : ℕ) :
    Option (Req × Claim) × PureSentinel Req Name Key Sig Claim :=
  if st.claim_accumulator.contains_key request = false then (none, st)
  else
    let st1 := { st with
      key_store := keys.foldl
        (fun ks (p : Name × Key) => ks.add_key p.1 sender p.2) st.key_store }
    match st1.claim_accumulator.get request with
    | some (request', claims) => st1.resolve vrfy request' claims quorum_size
    | none => (none, st1)

/-! ### `refresh_sentinel.rs`: `RefreshSentinel` -/

/-- `Entry` from `refresh_sentinel.rs`. -/
structure Entry (V : Type) where
  received_response : List V

/-- `RefreshSentinel`: quorum threshold and an `LruCache` from key to `Entry`
(the external container's capacity of 1000 and recency order are abstracted,
only the content is modelled). -/
structure RefreshSentinel (K V : Type) where
  quorum : ℕ
  storage : List (K × Entry V)

/-- `RefreshSentinel::new`. -/
def RefreshSentinel.new {K V : Type} (quorum : ℕ) : RefreshSentinel K V :=
  ⟨quorum, []⟩

/-- `RefreshSentinel::contains_key`. -/
def RefreshSentinel.contains_key {K V : Type} [DecidableEq K]
    (st : RefreshSentinel K V) (key : K) : Bool :=
  (mapLookup key st.storage).isSome

/-- `RefreshSentinel::add`: `storage.remove(&key)`; on a fresh key store
`Entry{[value]}` and emit only when `quorum == 1`; on an existing entry push
the value back and emit when the sequence length reached `quorum`.  The
remove-then-add of the source is a plain overwrite of the binding in the
content model. -/
def RefreshSentinel.add {K V : Type} [LinearOrder K] (st : RefreshSentinel K V)
    (key : K) (value : V) : Option (K × List V) × RefreshSentinel K V :=
  match mapLookup key st.storage with
  | none =>
    let entry_in : Entry V := ⟨[value]⟩
    let st1 := { st with
      storage := mapUpdate key (fun _ => entry_in) entry_in st.storage }
    if st.quorum = 1 then (some (key, entry_in.received_response), st1)
    else (none, st1)
  | some entry =>
    let tmp : Entry V := ⟨entry.received_response ++ [value]⟩
    let st1 := { st with
      storage := mapUpdate key (fun _ => tmp) tmp st.storage }
    if st.quorum ≤ tmp.received_response.length
    then (some (key, tmp.received_response), st1)
    else (none, st1)

/-! ### `account_sentinel.rs`: the median aggregator -/

/-- `Sentinel::resolve_mergeable` from `account_sentinel.rs`: below
`claim_threshold` claims (or a zero threshold) nothing resolves; otherwise
the claims are sorted ascending (Rust's stable `sort`, modelled by
`mergeSort`) and the element at index `len / 2` is returned. -/
def resolve_mergeable {Claim : Type} [LinearOrder Claim] (claim_threshold : ℕ)
    (verified_claims : List Claim) : Option Claim :=
  if verified_claims.length < claim_threshold ∨ ¬ 1 ≤ claim_threshold then none
  else
    (verified_claims.mergeSort (fun a b => decide (a ≤ b)))[verified_claims.length / 2]?

/-! ### Spec-level helpers used only in theorem statements -/

/-- The distinct elements of `ops` in order of first occurrence (the insertion
order of `Frequency`). -/
def firstOccs {α : Type} [DecidableEq α] (ops : List α) : List α :=
  ops.foldl (fun acc k => if k ∈ acc then acc else acc ++ [k]) []

/-- The `Frequency` built by one `update` per element of `ops`, in order. -/
def freqState {α : Type} [DecidableEq α] (ops : List α) : Frequency α :=
  ops.foldl Frequency.update Frequency.new

/-! ### Concrete artifacts used by counterexamples and witnesses -/

/-- A signing-scheme instance that accepts everything (the scheme is an
external parameter; this instantiates it for concrete evaluations). -/
def vfTrue : ℕ → ℕ → ℕ → Bool := fun _ _ _ => true

/-- A key store holding one quorate attestation: attester `3` vouches that
key `5` belongs to name `7`. -/
def ksOne : KeyStore ℕ ℕ := ⟨0, [(7, [(5, [3])])]⟩

/-- A sentinel state with an empty claim accumulator but a pre-populated key
store (reachable: keys accepted for an earlier request stay in the shared
key store after that request resolves or is evicted). -/
def purResolving : PureSentinel ℕ ℕ ℕ ℕ ℕ := ⟨⟨0, []⟩, ksOne⟩

/-- A sentinel state whose accumulator already holds request `1`. -/
def purSeen : PureSentinel ℕ ℕ ℕ ℕ ℕ := ⟨⟨0, [(1, [])]⟩, KeyStore.new 0⟩

/-- A key store for the `get_accumulated_keys` witness: for target `0`, key
`1` has attesters `{2, 3}` and key `4` has attester `{5}`. -/
def ksEx : KeyStore ℕ ℕ := ⟨0, [(0, [(1, [2, 3]), (4, [5])])]⟩

instance {α β : Type} [LT α] [DecidableRel ((· < ·) : α → α → Prop)]
    (l : List (α × β)) : Decidable (mapSorted l) := by
  unfold mapSorted; infer_instance

instance {Name Key : Type} [LT Name] [LT Key]
    [DecidableRel ((· < ·) : Name → Name → Prop)]
    [DecidableRel ((· < ·) : Key → Key → Prop)]
    (st : KeyStore Name Key) : Decidable st.WF := by
  unfold KeyStore.WF; infer_instance

/-! ## Lemmas about the container models -/

theorem mapLookup_eq_none {α β : Type} [DecidableEq α] {k : α}
    {l : List (α × β)} (h : ∀ p ∈ l, k ≠ p.1) : mapLookup k l = none := by
  induction l with
  | nil => rfl
  | cons p t ih =>
    rw [mapLookup, if_neg (h p (List.mem_cons_self _ _))]
    exact ih (fun q hq => h q (List.mem_cons_of_mem _ hq))

theorem mapLookup_mem {α β : Type} [DecidableEq α] {k : α} {v : β}
    {l : List (α × β)} (h : mapLookup k l = some v) : (k, v) ∈ l := by
  induction l with
  | nil => simp [mapLookup] at h
  | cons p t ih =>
    by_cases hk : k = p.1
    · rw [mapLookup, if_pos hk] at h
      obtain rfl : p.2 = v := Option.some.inj h
      subst hk
      exact List.mem_cons_self _ _
    · rw [mapLookup, if_neg hk] at h
      exact List.mem_cons_of_mem _ (ih h)

theorem mem_mapUpdate {α β : Type} [LinearOrder α] {k : α} {f : β → β} {d : β}
    {l : List (α × β)} {p : α × β} (hp : p ∈ mapUpdate k f d l) :
    p ∈ l ∨ p = (k, f d) ∨ ∃ q ∈ l, p = (q.1, f q.2) := by
  induction l with
  | nil =>
    rw [mapUpdate] at hp
    right; left
    simpa using hp
  | cons r t ih =>
    rw [mapUpdate] at hp
    by_cases h1 : k = r.1
    · rw [if_pos h1] at hp
      rcases List.mem_cons.mp hp with h | h
      · right; right
        exact ⟨r, List.mem_cons_self _ _, h⟩
      · left; exact List.mem_cons_of_mem _ h
    · rw [if_neg h1] at hp
      by_cases h2 : k < r.1
      · rw [if_pos h2] at hp
        rcases List.mem_cons.mp hp with h | h
        · right; left; exact h
        · left; exact h
      · rw [if_neg h2] at hp
        rcases List.mem_cons.mp hp with h | h
        · left; exact h ▸ List.mem_cons_self _ _
        · rcases ih h with h' | h' | ⟨q, hq, h'⟩
          · left; exact List.mem_cons_of_mem _ h'
          · right; left; exact h'
          · right; right; exact ⟨q, List.mem_cons_of_mem _ hq, h'⟩

theorem mapLookup_mapUpdate_self {α β : Type} [LinearOrder α] (k : α)
    (f : β → β) (d : β) {l : List (α × β)} (hs : mapSorted l) :
    mapLookup k (mapUpdate k f d l) = some (f ((mapLookup k l).getD d)) := by
  induction l with
  | nil => simp [mapUpdate, mapLookup]
  | cons p t ih =>
    rw [mapSorted, List.pairwise_cons] at hs
    by_cases h1 : k = p.1
    · rw [mapUpdate, if_pos h1, mapLookup, if_pos h1, mapLookup, if_pos h1]
      rfl
    · rw [mapUpdate, if_neg h1]
      by_cases h2 : k < p.1
      · rw [if_pos h2, mapLookup, if_pos rfl, mapLookup, if_neg h1,
          mapLookup_eq_none (fun q hq => ne_of_lt (h2.trans (hs.1 q hq)))]
        rfl
      · rw [if_neg h2, mapLookup, if_neg h1, mapLookup, if_neg h1]
        exact ih hs.2

theorem mapLookup_mapUpdate_ne {α β : Type} [LinearOrder α] {k k' : α}
    (hne : k' ≠ k) (f : β → β) (d : β) (l : List (α × β)) :
    mapLookup k' (mapUpdate k f d l) = mapLookup k' l := by
  induction l with
  | nil => simp [mapUpdate, mapLookup, hne]
  | cons p t ih =>
    by_cases h1 : k = p.1
    · rw [mapUpdate, if_pos h1, mapLookup, mapLookup]
      subst h1
      rw [if_neg hne, if_neg hne]
    · rw [mapUpdate, if_neg h1]
      by_cases h2 : k < p.1
      · rw [if_pos h2, mapLookup, if_neg hne]
      · rw [if_neg h2, mapLookup, mapLookup]
        by_cases h3 : k' = p.1
        · rw [if_pos h3, if_pos h3]
        · rw [if_neg h3, if_neg h3, ih]

theorem mapSorted_mapUpdate {α β : Type} [LinearOrder α] (k : α) (f : β → β)
    (d : β) {l : List (α × β)} (hs : mapSorted l) :
    mapSorted (mapUpdate k f d l) := by
  induction l with
  | nil => simp [mapUpdate, mapSorted]
  | cons p t ih =>
    rw [mapSorted, List.pairwise_cons] at hs
    by_cases h1 : k = p.1
    · rw [mapUpdate, if_pos h1, mapSorted, List.pairwise_cons]
      exact ⟨hs.1, hs.2⟩
    · rw [mapUpdate, if_neg h1]
      by_cases h2 : k < p.1
      · rw [if_pos h2, mapSorted, List.pairwise_cons]
        refine ⟨?_, ?_⟩
        · intro q hq
          rcases List.mem_cons.mp hq with h | h
          · exact h ▸ h2
          · exact h2.trans (hs.1 q h)
        · rw [mapSorted, List.pairwise_cons] at *
          exact ⟨hs.1, hs.2⟩
      · rw [if_neg h2, mapSorted, List.pairwise_cons]
        have hpk : p.1 < k := lt_of_le_of_ne (not_lt.mp h2) (fun h => h1 h.symm)
        refine ⟨?_, ih hs.2⟩
        intro q hq
        rcases mem_mapUpdate hq with h | h | ⟨r, hr, h⟩
        · exact hs.1 q h
        · rw [h]; exact hpk
        · rw [h]; exact hs.1 r hr

theorem mapLookup_mapDelete_self {α β : Type} [DecidableEq α] (k : α)
    (l : List (α × β)) : mapLookup k (mapDelete k l) = none := by
  induction l with
  | nil => rfl
  | cons p t ih =>
    by_cases h : p.1 = k
    · rw [mapDelete, List.filter_cons, if_neg (by simp [h])]
      exact ih
    · rw [mapDelete, List.filter_cons, if_pos (by simp [h]), mapLookup,
        if_neg (fun hk => h hk.symm)]
      exact ih

theorem setInsert_idem {α : Type} [LinearOrder α] (a : α) (s : List α) :
    setInsert a (setInsert a s) = setInsert a s := by
  induction s with
  | nil => simp [setInsert]
  | cons b t ih =>
    by_cases h1 : a = b
    · rw [setInsert, if_pos h1, setInsert, if_pos h1]
    · by_cases h2 : a < b
      · rw [setInsert, if_neg h1, if_pos h2, setInsert, if_pos rfl]
      · rw [setInsert, if_neg h1, if_neg h2, setInsert, if_neg h1, if_neg h2, ih]

theorem mapUpdate_idem {α β : Type} [LinearOrder α] (k : α) (f : β → β)
    (d : β) (hf : ∀ x, f (f x) = f x) (l : List (α × β)) :
    mapUpdate k f d (mapUpdate k f d l) = mapUpdate k f d l := by
  induction l with
  | nil => simp [mapUpdate, hf]
  | cons p t ih =>
    by_cases h1 : k = p.1
    · rw [mapUpdate, if_pos h1, mapUpdate, if_pos h1, hf]
    · rw [mapUpdate, if_neg h1]
      by_cases h2 : k < p.1
      · rw [if_pos h2, mapUpdate, if_pos rfl, hf]
      · rw [if_neg h2, mapUpdate, if_neg h1, if_neg h2, ih]

theorem pick_eq_filter_map {Name Key : Type} (keys : List (Key × List Name))
    (q : ℕ) :
    pick_where_quorum_reached keys q
      = (keys.filter (fun p => decide (q ≤ p.2.length))).map Prod.fst := by
  induction keys with
  | nil => rfl
  | cons p t ih =>
    by_cases h : q ≤ p.2.length
    · rw [pick_where_quorum_reached, List.filterMap_cons, if_pos h,
        List.filter_cons, if_pos (by simpa using h), List.map_cons]
      exact congrArg _ ih
    · rw [pick_where_quorum_reached, List.filterMap_cons, if_neg h,
        List.filter_cons, if_neg (by simpa using h)]
      exact ih

/-- `add_key` preserves the representation invariant of the `BTreeMap`
model: every state reachable from `KeyStore.new` is well formed. -/
theorem KeyStore.WF_add_key {Name Key : Type} [LinearOrder Name]
    [LinearOrder Key] {st : KeyStore Name Key} (h : st.WF)
    (target sender : Name) (key : Key) : (st.add_key target sender key).WF := by
  rw [KeyStore.add_key]
  by_cases hts : target = sender
  · rwa [if_pos hts]
  · rw [if_neg hts]
    refine ⟨mapSorted_mapUpdate _ _ _ h.1, ?_⟩
    intro p hp
    rcases mem_mapUpdate hp with hp' | hp' | ⟨q, hq, hp'⟩
    · exact h.2 p hp'
    · rw [hp']
      exact mapSorted_mapUpdate _ _ _ (by simp [mapSorted])
    · rw [hp']
      exact mapSorted_mapUpdate _ _ _ (h.2 q hq)

/-- The empty `KeyStore` is well formed. -/
theorem KeyStore.WF_new {Name Key : Type} [LT Name] [LT Key] (q : ℕ) :
    (KeyStore.new q : KeyStore Name Key).WF := by
  exact ⟨List.Pairwise.nil, by simp [KeyStore.new]⟩

/-! ## The claims -/

/-- C6: for every KeyStore state, target and key, `add_key` with
`attester == target` leaves the KeyStore unchanged; consequently six
self-attestations into a fresh store with quorum 6 leave
`get_accumulated_keys(0, Some(6))` empty. -/
theorem c6_self_attestation_noop {Name Key : Type} [LinearOrder Name]
    [LinearOrder Key] :
    (∀ (st : KeyStore Name Key) (target : Name) (key : Key),
      st.add_key target target key = st)
    ∧ KeyStore.get_accumulated_keys
        (((((((KeyStore.new 6 : KeyStore ℕ ℕ).add_key 0 0 5).add_key 0 0 5).add_key
          0 0 5).add_key 0 0 5).add_key 0 0 5).add_key 0 0 5) 0 (some 6) = [] := by
  constructor
  · intro st target key
    rw [KeyStore.add_key, if_pos rfl]
  · rfl

/-- C7: `KeyStore.add_key` is idempotent per `(target, attester, key)`
triple: adding the same triple twice yields exactly the state of adding it
once. -/
theorem c7_add_key_idempotent {Name Key : Type} [LinearOrder Name]
    [LinearOrder Key] (st : KeyStore Name Key) (target sender : Name)
    (key : Key) :
    (st.add_key target sender key).add_key target sender key
      = st.add_key target sender key := by
  by_cases h : target = sender
  · rw [KeyStore.add_key, if_pos h, KeyStore.add_key, if_pos h]
  · have hf : ∀ m, mapUpdate key (fun s => setInsert sender s) ([] : List Name)
        (mapUpdate key (fun s => setInsert sender s) [] m)
        = mapUpdate key (fun s => setInsert sender s) [] m :=
      mapUpdate_idem key _ [] (fun s => setInsert_idem sender s)
    simp only [KeyStore.add_key, if_neg h]
    rw [mapUpdate_idem _ _ _ hf]

/-- C5: for every well-formed KeyStore state, target and quorum `q`,
`get_accumulated_keys(target, Some q)` returns exactly the keys stored for
`target` whose attester-set has size at least `q` (all of them), in
ascending order of the key; keys below quorum are never returned. -/
theorem c5_get_accumulated_keys_spec {Name Key : Type} [LinearOrder Name]
    [LinearOrder Key] (st : KeyStore Name Key) (target : Name) (q : ℕ)
    (hwf : st.WF) :
    (∀ k : Key, k ∈ st.get_accumulated_keys target (some q) ↔
      ∃ m s, mapLookup target st.cache = some m ∧ (k, s) ∈ m ∧ q ≤ s.length)
    ∧ List.Sorted (· < ·) (st.get_accumulated_keys target (some q)) := by
  cases hm : mapLookup target st.cache with
  | none =>
    have hres : st.get_accumulated_keys target (some q) = [] := by
      simp only [KeyStore.get_accumulated_keys, hm]
    rw [hres]
    refine ⟨?_, List.sorted_nil⟩
    intro k
    simp only [List.not_mem_nil, false_iff]
    rintro ⟨m, s, hms, -, -⟩
    exact Option.noConfusion hms
  | some m =>
    have hres : st.get_accumulated_keys target (some q)
        = pick_where_quorum_reached m q := by
      simp only [KeyStore.get_accumulated_keys, hm, Option.getD_some]
    rw [hres]
    have hms : mapSorted m := hwf.2 (target, m) (mapLookup_mem hm)
    constructor
    · intro k
      simp only [pick_where_quorum_reached, List.mem_filterMap]
      constructor
      · rintro ⟨p, hp, hpk⟩
        by_cases h : q ≤ p.2.length
        · rw [if_pos h] at hpk
          obtain rfl : p.1 = k := Option.some.inj hpk
          exact ⟨m, p.2, rfl, by simpa using hp, h⟩
        · rw [if_neg h] at hpk
          exact Option.noConfusion hpk
      · rintro ⟨m', s, hm', hks, hq⟩
        obtain rfl : m = m' := Option.some.inj hm'
        exact ⟨(k, s), hks, by rw [if_pos hq]⟩
    · rw [pick_eq_filter_map]
      exact List.Pairwise.map Prod.fst (fun a b h => h)
        (List.Pairwise.filter _ hms)

/-- C3: `add_keys` for a Request not currently accumulating claims returns
`None` and leaves the whole sentinel state (claim accumulator and KeyStore)
unchanged: no submitted key is stored. -/
theorem c3_unknown_request_keys_dropped {Req Name Key Sig Claim : Type}
    [LinearOrder Req] [LinearOrder Name] [LinearOrder Key] [DecidableEq Claim]
    (vrfy : Sig → Key → Claim → Bool)
    (st : PureSentinel Req Name Key Sig Claim) (request : Req) (sender : Name)
    (keys : List (Name × Key)) (quorum_size : ℕ)
    (h : st.claim_accumulator.contains_key request = false) :
    PureSentinel.add_keys vrfy st request sender keys quorum_size = (none, st) := by
  rw [PureSentinel.add_keys, if_pos h]

/-- C4: whenever `resolve` succeeds, the only state change is the deletion of
the Request's claim-accumulator entry — the KeyStore is untouched — and the
resolved Request cannot re-resolve through `add_keys` without fresh claim
submissions. -/
theorem c4_resolve_frame {Req Name Key Sig Claim : Type} [LinearOrder Req]
    [LinearOrder Name] [LinearOrder Key] [DecidableEq Claim]
    (vrfy : Sig → Key → Claim → Bool)
    (st : PureSentinel Req Name Key Sig Claim) (request : Req)
    (claims : List (Name × Sig × Claim)) (quorum_size : ℕ) (req : Req)
    (body : Claim) (st' : PureSentinel Req Name Key Sig Claim)
    (h : PureSentinel.resolve vrfy st request claims quorum_size
      = (some (req, body), st')) :
    req = request
    ∧ st' = { st with claim_accumulator := st.claim_accumulator.delete request }
    ∧ st'.key_store = st.key_store
    ∧ ∀ (sender : Name) (keys : List (Name × Key)) (q2 : ℕ),
        PureSentinel.add_keys vrfy st' request sender keys q2 = (none, st') := by
  rw [PureSentinel.resolve] at h
  cases hsq : squash (st.verify vrfy claims quorum_size) quorum_size with
  | none =>
    rw [hsq] at h
    exact absurd (congrArg Prod.fst h) (by simp)
  | some c =>
    rw [hsq] at h
    have h1 := congrArg Prod.fst h
    have h2 := congrArg Prod.snd h
    simp only [Option.some.injEq, Prod.mk.injEq] at h1 h2
    obtain ⟨hreq, hbody⟩ := h1
    refine ⟨hreq.symm, h2.symm, by rw [← h2], ?_⟩
    intro sender keys q2
    have hck : st'.claim_accumulator.contains_key request = false := by
      rw [← h2]
      simp only [Accumulator.contains_key, Accumulator.delete]
      rw [mapLookup_mapDelete_self]
      rfl
    rw [PureSentinel.add_keys, if_pos hck]

/-- C9 counterexample: on a fresh key with `quorum_size = 0` the sequence
after insertion has `1 ≥ 0` elements, yet `RefreshSentinel::add` returns
nothing, because the fresh-entry branch tests `quorum == 1` instead of
`len >= quorum`. -/
theorem c9_add_quorum_zero_counterexample :
    ((RefreshSentinel.new 0 : RefreshSentinel ℕ ℕ).add 1 5).1 = none
    ∧ mapLookup 1 ((RefreshSentinel.new 0 : RefreshSentinel ℕ ℕ).add 1 5).2.storage
        = some ⟨[5]⟩
    ∧ (RefreshSentinel.new 0 : RefreshSentinel ℕ ℕ).quorum ≤ ([5] : List ℕ).length :=
  ⟨rfl, rfl, by decide⟩

/-- C9 (amended): provided `quorum_size ≥ 1`, `add(request, submission)`
appends the submission to the sequence stored at the request (creating the
entry if absent, touching no other entry) and returns the request with the
sequence snapshot iff the sequence after insertion has at least
`quorum_size` elements — otherwise it returns nothing. -/
theorem c9_accumulator_add_spec {K V : Type} [LinearOrder K]
    (st : RefreshSentinel K V) (key : K) (value : V) (hq : 1 ≤ st.quorum)
    (hw : mapSorted st.storage) :
    mapLookup key (st.add key value).2.storage
        = some ⟨((mapLookup key st.storage).map Entry.received_response).getD []
            ++ [value]⟩
    ∧ (∀ k2, k2 ≠ key →
        mapLookup k2 (st.add key value).2.storage = mapLookup k2 st.storage)
    ∧ ((st.add key value).1
        = if st.quorum ≤ (((mapLookup key st.storage).map
              Entry.received_response).getD [] ++ [value]).length
          then some (key, ((mapLookup key st.storage).map
              Entry.received_response).getD [] ++ [value])
          else none)
    ∧ (st.add key value).2.quorum = st.quorum := by
  cases hl : mapLookup key st.storage with
  | none =>
    have h1 : (st.add key value).1
        = if st.quorum = 1 then some (key, [value]) else none := by
      simp only [RefreshSentinel.add, hl]
      split <;> rfl
    have h2 : (st.add key value).2.storage
        = mapUpdate key (fun _ => Entry.mk [value]) (Entry.mk [value])
            st.storage := by
      simp only [RefreshSentinel.add, hl]
      split <;> rfl
    have h3 : (st.add key value).2.quorum = st.quorum := by
      simp only [RefreshSentinel.add, hl]
      split <;> rfl
    refine ⟨?_, ?_, ?_, h3⟩
    · rw [h2, mapLookup_mapUpdate_self _ _ _ hw]
      simp
    · intro k2 hk2
      rw [h2]
      exact mapLookup_mapUpdate_ne hk2 _ _ _
    · rw [h1]
      by_cases hone : st.quorum = 1
      · simp [hone]
      · have hgt : ¬ st.quorum ≤ 1 := by omega
        simp [hone, hgt]
  | some entry =>
    have h1 : (st.add key value).1
        = if st.quorum ≤ (entry.received_response ++ [value]).length
          then some (key, entry.received_response ++ [value]) else none := by
      simp only [RefreshSentinel.add, hl]
      split <;> rfl
    have h2 : (st.add key value).2.storage
        = mapUpdate key (fun _ => Entry.mk (entry.received_response ++ [value]))
            (Entry.mk (entry.received_response ++ [value])) st.storage := by
      simp only [RefreshSentinel.add, hl]
      split <;> rfl
    have h3 : (st.add key value).2.quorum = st.quorum := by
      simp only [RefreshSentinel.add, hl]
      split <;> rfl
    refine ⟨?_, ?_, ?_, h3⟩
    · rw [h2, mapLookup_mapUpdate_self _ _ _ hw]
      simp
    · intro k2 hk2
      rw [h2]
      exact mapLookup_mapUpdate_ne hk2 _ _ _
    · rw [h1]
      simp

unseal List.merge List.mergeSort in
/-- C1 counterexample: a Request not currently present in the claim
accumulator whose first `add_claim` does not return
`RequestKeys(request.source)` — it resolves immediately (quorum 1, keys for
the claimant already quorate in the shared key store) and returns
`Resolved` instead. -/
theorem c1_first_claim_can_resolve :
    purResolving.claim_accumulator.contains_key 1 = false
    ∧ (PureSentinel.add_claim vfTrue (fun r => r) purResolving 1 7 0 9 1).1
        = some (AddResult.Resolved 1 9)
    ∧ (PureSentinel.add_claim vfTrue (fun r => r) purResolving 1 7 0 9 1).1
        ≠ some (AddResult.RequestKeys 1) := by
  refine ⟨rfl, rfl, ?_⟩
  intro h
  rw [show (PureSentinel.add_claim vfTrue (fun r => r) purResolving 1 7 0 9 1).1
      = some (AddResult.Resolved 1 9) from rfl] at h
  exact AddResult.noConfusion (Option.some.inj h)

/-- C1 (amended): on a Request not currently present in the claim
accumulator, `add_claim` returns `RequestKeys(request.source)` unless that
very call resolves the Request (then it returns `Resolved(request, body)`);
on a Request already present, `add_claim` never returns a `RequestKeys`
signal. -/
theorem c1_first_sighting_signal {Req Name Key Sig Claim : Type}
    [LinearOrder Req] [DecidableEq Name] [DecidableEq Claim]
    (vrfy : Sig → Key → Claim → Bool) (get_source : Req → Name)
    (st : PureSentinel Req Name Key Sig Claim) (request : Req)
    (claimant : Name) (signature : Sig) (claim : Claim) (quorum_size : ℕ) :
    (st.claim_accumulator.contains_key request = false →
      (PureSentinel.add_claim vrfy get_source st request claimant signature
          claim quorum_size).1 = some (.RequestKeys (get_source request))
      ∨ ∃ body, (PureSentinel.add_claim vrfy get_source st request claimant
          signature claim quorum_size).1 = some (.Resolved request body))
    ∧ (st.claim_accumulator.contains_key request = true →
      ∀ n, (PureSentinel.add_claim vrfy get_source st request claimant
          signature claim quorum_size).1 ≠ some (.RequestKeys n)) := by
  constructor
  · intro hnew
    simp only [PureSentinel.add_claim, PureSentinel.resolve, Accumulator.add,
      Accumulator.set_quorum_size, hnew, Bool.not_false, if_true]
    by_cases hadd : quorum_size ≤
        (((mapLookup request st.claim_accumulator.storage).getD [])
          ++ [(claimant, signature, claim)]).length
    · simp only [hadd, ite_true]
      rcases hsq : squash (PureSentinel.verify vrfy
          ⟨⟨quorum_size, mapUpdate request
              (fun s => s ++ [(claimant, signature, claim)]) []
              st.claim_accumulator.storage⟩, st.key_store⟩
          ((mapLookup request st.claim_accumulator.storage).getD []
            ++ [(claimant, signature, claim)]) quorum_size) quorum_size
          with _ | c
      · left; trivial
      · right; exact ⟨c, rfl⟩
    · simp only [hadd, ite_false]
      left; trivial
  · intro hseen n h
    simp only [PureSentinel.add_claim, PureSentinel.resolve, Accumulator.add,
      Accumulator.set_quorum_size, hseen, Bool.not_true] at h
    by_cases hadd : quorum_size ≤
        (((mapLookup request st.claim_accumulator.storage).getD [])
          ++ [(claimant, signature, claim)]).length
    · simp only [hadd, ite_true] at h
      rcases hsq : squash (PureSentinel.verify vrfy
          ⟨⟨quorum_size, mapUpdate request
              (fun s => s ++ [(claimant, signature, claim)]) []
              st.claim_accumulator.storage⟩, st.key_store⟩
          ((mapLookup request st.claim_accumulator.storage).getD []
            ++ [(claimant, signature, claim)]) quorum_size) quorum_size
          with _ | c
      · rw [hsq] at h
        simp at h
      · rw [hsq] at h
        simp at h
    · simp only [hadd, ite_false] at h
      simp at h

/-- C2: `add_claim` never returns `Resolved` while fewer than `quorum_size`
submissions (the current one included) have been accumulated for the
Request, and `squash` returns nothing whenever the list of verified claim
bodies has fewer than `quorum_size` elements. -/
theorem c2_no_early_resolve {Req Name Key Sig Claim : Type} [LinearOrder Req]
    [DecidableEq Name] [DecidableEq Claim] (vrfy : Sig → Key → Claim → Bool)
    (get_source : Req → Name) (st : PureSentinel Req Name Key Sig Claim)
    (request : Req) (claimant : Name) (signature : Sig) (claim : Claim)
    (quorum_size : ℕ) :
    (∀ (vs : List Claim) (q : ℕ), vs.length < q → squash vs q = none)
    ∧ (∀ (req : Req) (body : Claim),
        (PureSentinel.add_claim vrfy get_source st request claimant signature
            claim quorum_size).1 = some (.Resolved req body) →
        quorum_size ≤ (((mapLookup request st.claim_accumulator.storage).getD [])
          ++ [(claimant, signature, claim)]).length) := by
  constructor
  · intro vs q h
    rw [squash, if_pos h]
  · intro req body hres
    by_cases hadd : quorum_size ≤
        (((mapLookup request st.claim_accumulator.storage).getD [])
          ++ [(claimant, signature, claim)]).length
    · exact hadd
    · exfalso
      simp only [PureSentinel.add_claim, Accumulator.add,
        Accumulator.set_quorum_size, hadd, ite_false] at hres
      cases hb : st.claim_accumulator.contains_key request <;>
        simp [hb] at hres

/-- C10: whenever at least `claim_threshold ≥ 1` verified claims are given,
the median resolver returns the element at index `len / 2` of the
ascending-sorted list (stated against any sorted permutation of the input;
in particular `[1,2,3,4,5]` with threshold 5 resolves to `3`, see the
witness). -/
theorem c10_resolve_mergeable_median {Claim : Type} [LinearOrder Claim]
    (claim_threshold : ℕ) (claims l : List Claim) (h1 : 1 ≤ claim_threshold)
    (h2 : claim_threshold ≤ claims.length) (hp : l.Perm claims)
    (hs : l.Sorted (· ≤ ·)) :
    resolve_mergeable claim_threshold claims = l[claims.length / 2]?
    ∧ ∃ x, resolve_mergeable claim_threshold claims = some x := by
  have hcond : ¬ (claims.length < claim_threshold ∨ ¬ 1 ≤ claim_threshold) := by
    push_neg
    exact ⟨h2, h1⟩
  rw [resolve_mergeable, if_neg hcond]
  have hsorted : (claims.mergeSort (fun a b => decide (a ≤ b))).Sorted (· ≤ ·) := by
    have hps := @List.sorted_mergeSort Claim (fun a b => decide (a ≤ b))
      (fun a b c hab hbc => by
        simp only [decide_eq_true_eq] at hab hbc ⊢
        exact le_trans hab hbc)
      (fun a b => by
        simp only [Bool.or_eq_true, decide_eq_true_eq]
        exact le_total a b)
      claims
    exact hps.imp (fun h => by simpa using h)
  have heq : l = claims.mergeSort (fun a b => decide (a ≤ b)) :=
    List.eq_of_perm_of_sorted
      (hp.trans (List.mergeSort_perm claims _).symm) hs hsorted
  rw [← heq]
  have hlen : claims.length / 2 < l.length := by
    have hll := hp.length_eq
    omega
  exact ⟨rfl, l[claims.length / 2], List.getElem?_eq_getElem hlen⟩

/-! ### Supporting lemmas for the `Frequency` claim -/

theorem updateMap_not_mem {α : Type} [DecidableEq α] {k : α} {K : List α}
    (f : α → ℕ) (hk : k ∉ K) :
    Frequency.updateMap k (K.map (fun x => (x, f x)))
      = K.map (fun x => (x, f x)) ++ [(k, 1)] := by
  induction K with
  | nil => rfl
  | cons x t ih =>
    have hx : ¬ x = k := fun h => hk (by rw [← h]; exact List.mem_cons_self _ _)
    simp only [List.map_cons, Frequency.updateMap, hx, ite_false,
      List.cons_append, List.cons.injEq, true_and]
    exact ih (fun h => hk (List.mem_cons_of_mem _ h))

theorem updateMap_mem {α : Type} [DecidableEq α] {k : α} {K : List α}
    (f : α → ℕ) (hnd : K.Nodup) (hk : k ∈ K) :
    Frequency.updateMap k (K.map (fun x => (x, f x)))
      = K.map (fun x => (x, if x = k then f x + 1 else f x)) := by
  induction K with
  | nil => simp at hk
  | cons x t ih =>
    rcases List.nodup_cons.mp hnd with ⟨hxt, hndt⟩
    by_cases hx : x = k
    · subst hx
      simp only [List.map_cons, Frequency.updateMap, ite_true, if_pos rfl,
        List.cons.injEq, true_and]
      exact (List.map_congr_left (fun y hy => by
        rw [if_neg (fun h => hxt (by rw [← h]; exact hy))])).symm
    · have hkt : k ∈ t := by
        rcases List.mem_cons.mp hk with h | h
        · exact absurd h.symm hx
        · exact h
      simp only [List.map_cons, Frequency.updateMap, hx, ite_false,
        List.cons.injEq, true_and]
      exact ih hndt hkt

theorem firstOccs_concat {α : Type} [DecidableEq α] (ops : List α) (k : α) :
    firstOccs (ops ++ [k])
      = if k ∈ firstOccs ops then firstOccs ops else firstOccs ops ++ [k] := by
  simp [firstOccs, List.foldl_append]

theorem mem_firstOccs {α : Type} [DecidableEq α] (ops : List α) :
    ∀ x, x ∈ firstOccs ops ↔ x ∈ ops := by
  induction ops using List.reverseRecOn with
  | nil => intro x; simp [firstOccs]
  | append_singleton l k ih =>
    intro x
    rw [firstOccs_concat]
    by_cases h : k ∈ firstOccs l
    · rw [if_pos h]
      constructor
      · intro hx
        exact List.mem_append_left _ ((ih x).mp hx)
      · intro hx
        rcases List.mem_append.mp hx with hx | hx
        · exact (ih x).mpr hx
        · rw [List.mem_singleton.mp hx]
          exact h
    · rw [if_neg h]
      simp [ih x, List.mem_append]

theorem firstOccs_nodup {α : Type} [DecidableEq α] (ops : List α) :
    (firstOccs ops).Nodup := by
  induction ops using List.reverseRecOn with
  | nil => simp [firstOccs]
  | append_singleton l k ih =>
    rw [firstOccs_concat]
    by_cases h : k ∈ firstOccs l
    · rw [if_pos h]; exact ih
    · rw [if_neg h]
      simp [List.nodup_append, ih, h]

theorem freqState_concat {α : Type} [DecidableEq α] (ops : List α) (k : α) :
    freqState (ops ++ [k]) = (freqState ops).update k := by
  simp [freqState, List.foldl_append]

/-- Closed form of the `Frequency` state: one pair per distinct updated
value, in first-insertion order, counting its occurrences. -/
theorem freqState_map {α : Type} [DecidableEq α] (ops : List α) :
    (freqState ops).map = (firstOccs ops).map (fun k => (k, ops.count k)) := by
  induction ops using List.reverseRecOn with
  | nil => rfl
  | append_singleton l k ih =>
    rw [freqState_concat, firstOccs_concat]
    show Frequency.updateMap k (freqState l).map = _
    rw [ih]
    by_cases h : k ∈ firstOccs l
    · rw [if_pos h, updateMap_mem (fun x => l.count x) (firstOccs_nodup l) h]
      refine List.map_congr_left (fun x hx => ?_)
      by_cases hxk : x = k
      · subst hxk
        simp [List.count_append]
      · simp [List.count_append, hxk, Ne.symm hxk]
    · have hkl : k ∉ l := fun hc => h ((mem_firstOccs l k).mpr hc)
      rw [if_neg h, updateMap_not_mem (fun x => l.count x) h, List.map_append]
      congr 1
      · refine List.map_congr_left (fun x hx => ?_)
        have hxk : ¬ x = k := fun hc => hkl (by rw [← hc]; exact (mem_firstOccs l x).mp hx)
        simp [List.count_append, hxk, Ne.symm hxk]
      · simp [List.count_append, List.count_eq_zero_of_not_mem hkl]

/-- C8: for every sequence of `Frequency::update` calls, the counter holds
one pair per distinct updated value with its exact occurrence count, in
first-insertion order; `sort_by_highest` returns a permutation of those
pairs in descending count order, and the sort is stable: pairs of equal
count keep their first-insertion relative order (so `squash` emits the
first-inserted body among tied winners). -/
theorem c8_frequency_spec {α : Type} [DecidableEq α] (ops : List α) :
    (freqState ops).map = (firstOccs ops).map (fun k => (k, ops.count k))
    ∧ List.Sorted (fun a b : α × ℕ => b.2 ≤ a.2) ((freqState ops).sort_by_highest)
    ∧ ((freqState ops).sort_by_highest).Perm (freqState ops).map
    ∧ ∀ c : ℕ, ((freqState ops).sort_by_highest).filter (fun p => decide (p.2 = c))
        = ((freqState ops).map).filter (fun p => decide (p.2 = c)) := by
  have htrans : ∀ a b c : α × ℕ, (fun a b : α × ℕ => decide (b.2 ≤ a.2)) a b = true →
      (fun a b : α × ℕ => decide (b.2 ≤ a.2)) b c = true →
      (fun a b : α × ℕ => decide (b.2 ≤ a.2)) a c = true := by
    intro a b c hab hbc
    simp only [decide_eq_true_eq] at hab hbc ⊢
    exact le_trans hbc hab
  have htotal : ∀ a b : α × ℕ, ((fun a b : α × ℕ => decide (b.2 ≤ a.2)) a b
      || (fun a b : α × ℕ => decide (b.2 ≤ a.2)) b a) = true := by
    intro a b
    simp only [Bool.or_eq_true, decide_eq_true_eq]
    exact le_total b.2 a.2
  refine ⟨freqState_map ops, ?_, ?_, ?_⟩
  · have hps := @List.sorted_mergeSort (α × ℕ) (fun a b => decide (b.2 ≤ a.2))
      htrans htotal (freqState ops).map
    exact hps.imp (fun h => by simpa using h)
  · exact List.mergeSort_perm _ _
  · intro c
    have hpw : (((freqState ops).map).filter
        (fun p => decide (p.2 = c))).Pairwise
        (fun a b : α × ℕ => (fun a b : α × ℕ => decide (b.2 ≤ a.2)) a b = true) := by
      refine List.pairwise_of_forall_mem_list (fun a ha b hb => ?_)
      have ha2 := (List.mem_filter.mp ha).2
      have hb2 := (List.mem_filter.mp hb).2
      simp only [decide_eq_true_eq] at ha2 hb2 ⊢
      omega
    have hsub : (((freqState ops).map).filter
        (fun p => decide (p.2 = c))).Sublist ((freqState ops).sort_by_highest) :=
      List.sublist_mergeSort htrans htotal hpw (List.filter_sublist _)
    have hself : (((freqState ops).map).filter (fun p => decide (p.2 = c))).filter
        (fun p => decide (p.2 = c))
        = ((freqState ops).map).filter (fun p => decide (p.2 = c)) :=
      List.filter_eq_self.mpr (fun a ha => (List.mem_filter.mp ha).2)
    have hsub2 : (((freqState ops).map).filter
        (fun p => decide (p.2 = c))).Sublist
        (((freqState ops).sort_by_highest).filter (fun p => decide (p.2 = c))) := by
      have := hsub.filter (fun p => decide (p.2 = c))
      rwa [hself] at this
    have hperm : (((freqState ops).sort_by_highest).filter
        (fun p => decide (p.2 = c))).Perm
        (((freqState ops).map).filter (fun p => decide (p.2 = c))) :=
      (List.mergeSort_perm _ _).filter _
    exact (hsub2.eq_of_length hperm.length_eq.symm).symm

/-! ### Witnesses: the hypotheses of the claim theorems are satisfiable -/

/-- Witness for C1 (amended): at a fresh state with quorum 2 the first
`add_claim` returns the `RequestKeys` signal, and at a state already holding
the request it does not. -/
theorem c1_first_sighting_signal_witness :
    (PureSentinel.add_claim vfTrue (fun r => r)
        (PureSentinel.new : PureSentinel ℕ ℕ ℕ ℕ ℕ) 1 7 0 9 2).1
      = some (AddResult.RequestKeys 1)
    ∧ (PureSentinel.add_claim vfTrue (fun r => r) purSeen 1 7 0 9 2).1
      ≠ some (AddResult.RequestKeys 1) := by
  refine ⟨?_, (c1_first_sighting_signal vfTrue (fun r => r) purSeen
    1 7 0 9 2).2 rfl 1⟩
  rcases (c1_first_sighting_signal vfTrue (fun r => r) PureSentinel.new
      1 7 0 9 2).1 rfl with h | ⟨body, h⟩
  · exact h
  · rw [show (PureSentinel.add_claim vfTrue (fun r => r)
        (PureSentinel.new : PureSentinel ℕ ℕ ℕ ℕ ℕ) 1 7 0 9 2).1
        = some (AddResult.RequestKeys 1) from rfl] at h
    exact absurd (Option.some.inj h) (fun hc => AddResult.noConfusion hc)

unseal List.merge List.mergeSort in
/-- Witness for C2: `squash` of an empty verified list at quorum 1 yields
nothing, and a concrete resolving `add_claim` call had accumulated at least
`quorum_size` submissions. -/
theorem c2_no_early_resolve_witness :
    squash ([] : List ℕ) 1 = none
    ∧ (1 : ℕ) ≤ (((mapLookup 1 purResolving.claim_accumulator.storage).getD [])
        ++ [(7, 0, 9)]).length :=
  ⟨(c2_no_early_resolve vfTrue (fun r => r) purResolving 1 7 0 9 1).1 []
      1 (by decide),
   (c2_no_early_resolve vfTrue (fun r => r) purResolving 1 7 0 9 1).2 1 9 rfl⟩

/-- Witness for C3: keys submitted for an unknown request at a fresh
sentinel are dropped with no state change. -/
theorem c3_unknown_request_keys_dropped_witness :
    PureSentinel.add_keys vfTrue (PureSentinel.new : PureSentinel ℕ ℕ ℕ ℕ ℕ)
      1 2 [(3, 4)] 1 = (none, PureSentinel.new) :=
  c3_unknown_request_keys_dropped vfTrue PureSentinel.new 1 2 [(3, 4)] 1 rfl

unseal List.merge List.mergeSort in
/-- Witness for C4: a concrete state resolves, and afterwards `add_keys`
for the resolved request has no effect. -/
theorem c4_resolve_frame_witness :
    PureSentinel.add_keys vfTrue purResolving 1 2 [(3, 4)] 1
      = (none, purResolving) := by
  have h : PureSentinel.resolve vfTrue purResolving 1 [(7, 0, 9)] 1
      = (some (1, 9), purResolving) := rfl
  exact (c4_resolve_frame vfTrue purResolving 1 [(7, 0, 9)] 1 1 9
    purResolving h).2.2.2 2 [(3, 4)] 1

/-- Witness for C5: on a concrete well-formed store, key `1` (two
attesters) is returned at quorum 2 and the result is ascending. -/
theorem c5_get_accumulated_keys_spec_witness :
    (1 ∈ KeyStore.get_accumulated_keys ksEx 0 (some 2))
    ∧ List.Sorted (· < ·) (KeyStore.get_accumulated_keys ksEx 0 (some 2)) :=
  ⟨((c5_get_accumulated_keys_spec ksEx 0 2 (by decide)).1 1).mpr
      ⟨[(1, [2, 3]), (4, [5])], [2, 3], rfl, by decide, by decide⟩,
   (c5_get_accumulated_keys_spec ksEx 0 2 (by decide)).2⟩

/-- Witness for C9 (amended): adding a second value to an existing entry at
quorum 1 stores `[7, 8]` and emits the snapshot. -/
theorem c9_accumulator_add_spec_witness :
    mapLookup 3 (((⟨1, [(3, ⟨[7]⟩)]⟩ : RefreshSentinel ℕ ℕ).add 3 8).2.storage)
        = some ⟨[7, 8]⟩
    ∧ ((⟨1, [(3, ⟨[7]⟩)]⟩ : RefreshSentinel ℕ ℕ).add 3 8).1 = some (3, [7, 8]) := by
  have h := c9_accumulator_add_spec (⟨1, [(3, ⟨[7]⟩)]⟩ : RefreshSentinel ℕ ℕ)
    3 8 (by decide) (by decide)
  exact ⟨h.1, h.2.2.1⟩

/-- Witness for C10 (scenario S6): claims `[1,2,3,4,5]` with threshold 5
resolve to the median `3`. -/
theorem c10_resolve_mergeable_median_witness :
    resolve_mergeable 5 ([1, 2, 3, 4, 5] : List ℕ) = some 3 := by
  have h := (c10_resolve_mergeable_median 5 [1, 2, 3, 4, 5] [1, 2, 3, 4, 5]
    (by decide) (by decide) (List.Perm.refl _) (by decide)).1
  rw [h]
  rfl

end Sentinel
